import Mathlib

/-!
# freedv_700d_comprx: the complex-valued receive harness

A shallow embedding of `unittest/freedv_700d_comprx.c` (codec2).  The harness reads
interleaved 16-bit I/Q values from standard input in blocks of `2*nin`, shifts them in
frequency, takes the real part, adds the real part of a complex sine wave placed at `-fc`,
logs the frame to `demod.f32`, hands it to the FreeDV 700D demodulator and accumulates the
power of the two paths.

Conventions of the embedding:

* `float`/`double` values are elements of a field `R`; the theorems about "exact arithmetic"
  take `R = ℝ`.  `cos`, `sin`, `log10` and `M_PI` come from the C library and are passed in a
  `Libm` record, instantiated by `Real.cos`, `Real.sin`, `Real.pi` where a claim needs the
  real functions.
* The demodulator (`freedv_api`) is an external collaborator: a record `Freedv σ R` of
  arbitrary functions over an arbitrary handle state `σ`.
* Streams are lists: `stdin` is the list of raw 16-bit values still unread, `stdout`,
  `fdemod` and `stderr` are the lists of items written so far.
* The buffers `demod_in`, `demod_in_comp` and `speech_out` are sized from the API's
  maxima; the embedding takes a frame to be the list of its `nin` samples and assumes the
  API keeps `nin` and `nout` within those maxima.
* The `while` loop may run for ever (a demodulator that keeps asking for `nin = 0`), so
  `mainLoop` takes a bound on the number of evaluations of the loop condition and returns
  `none` when the bound is exhausted.
-/

namespace Codec2

/-! ## Complex sample model (`comp.h`, `comp_prim.h`) -/

/-- The `COMP` struct of `comp.h`: a pair of floats. -/
structure COMP (R : Type) where
  real : R
  imag : R
  deriving DecidableEq

/-- Modelled from the spec: `cadd` of `comp_prim.h`, which is not among the sources;
spec 4.1 "add: componentwise sum". -/
def cadd {R : Type} [Field R] (a b : COMP R) : COMP R :=
  ⟨a.real + b.real, a.imag + b.imag⟩

/-- Modelled from the spec: `cmult` of `comp_prim.h`, which is not among the sources;
spec 4.1 "multiply: (a.re*b.re - a.im*b.im, a.re*b.im + a.im*b.re)". -/
def cmult {R : Type} [Field R] (a b : COMP R) : COMP R :=
  ⟨a.real * b.real - a.imag * b.imag, a.real * b.imag + a.imag * b.real⟩

/-- Modelled from the spec: `fcmult` of `comp_prim.h`, which is not among the sources;
spec 4.1 "scale(a, k) (real scalar)". -/
def fcmult {R : Type} [Field R] (a : R) (b : COMP R) : COMP R :=
  ⟨a * b.real, a * b.imag⟩

/-- Modelled from the spec: `cconj` of `comp_prim.h`, which is not among the sources;
spec 4.1 "conjugate: negate imaginary part". -/
def cconj {R : Type} [Field R] (a : COMP R) : COMP R :=
  ⟨a.real, -a.imag⟩

/-- The quantity `re*re + im*im` that both power totals accumulate (lines 83 and 85). -/
def sqmag {R : Type} [Field R] (a : COMP R) : R :=
  a.real * a.real + a.imag * a.imag

/-! ## External collaborators -/

/-- The C library functions and constant used by the harness. -/
structure Libm (R : Type) where
  cos : R → R
  sin : R → R
  log10 : R → R
  M_PI : R

/-- The FreeDV API as the harness uses it, over an arbitrary handle state `σ`. -/
structure Freedv (σ R : Type) where
  /-- The handle returned by `freedv_open(FREEDV_MODE_700D)`. -/
  freedv_open : σ
  /-- The field `freedv->ofdm->tx_centre`. -/
  tx_centre : σ → R
  /-- The query `freedv_nin`. -/
  freedv_nin : σ → Nat
  /-- The call `freedv_comprx`: the updated handle and the `nout` decoded samples. -/
  freedv_comprx : σ → List (COMP R) → σ × List Int
  /-- The call `freedv_get_modem_stats`: `sync` and `snr_est`. -/
  freedv_get_modem_stats : σ → Int × R

/-- Modelled from the spec: the constant `FREEDV_FS_8000` of `freedv_api.h`, which is not
among the sources; the sample rate of the run, 8000 Hz. -/
def FREEDV_FS_8000 : Nat := 8000

/-! ## Frequency Shift Operator -/

/-- Modelled from the spec: the loop of `fdmdv_freq_shift_coh` (`fdmdv.c` is not among the
sources); spec 4.2 "multiply each sample in place by the current phasor, then advance the
phasor by multiplying it with a fixed per-sample rotation increment".  Returns the shifted
samples and the phasor state after the last one. -/
def freq_shift_loop {R : Type} [Field R] (foff_rect : COMP R) :
    List (COMP R) → COMP R → List (COMP R) × COMP R
  | [], phase => ([], phase)
  | x :: xs, phase =>
    let y := cmult x phase
    let r := freq_shift_loop foff_rect xs (cmult phase foff_rect)
    (y :: r.1, r.2)

/-- Modelled from the spec: `fdmdv_freq_shift_coh` (`fdmdv.c` is not among the sources);
spec 4.2: the rotation increment is "computed once from (2π·f/fs) as (cos θ, sin θ)", the
phasor state is taken and returned. -/
def fdmdv_freq_shift_coh {R : Type} [Field R] (lm : Libm R) (rx_fdm : List (COMP R))
    (foff Fs : R) (foff_phase_rect : COMP R) : List (COMP R) × COMP R :=
  let foff_rect : COMP R :=
    ⟨lm.cos (2 * lm.M_PI * foff / Fs), lm.sin (2 * lm.M_PI * foff / Fs)⟩
  freq_shift_loop foff_rect rx_fdm foff_phase_rect

/-! ## The harness `main` -/

/-- One line written to `stderr`. -/
inductive LogLine (R : Type) where
  /-- Line 28: `foff_hz: %f`. -/
  | foff (foff_hz : R)
  /-- Line 98: `sync: %d  snr_est: %f`. -/
  | frame (sync : Int) (snr_est : R)
  /-- Line 104: `Demod/Interferer power ratio: %3.2f dB`. -/
  | power (dB : R)
  deriving DecidableEq

/-- The local variables of `main` that live across loop iterations, and the streams. -/
structure MainState (σ R : Type) where
  freedv : σ
  nin : Nat
  phase_ch : COMP R
  interferer_phase : COMP R
  interferer_freq : COMP R
  power_d : R
  power_interferer : R
  stdin : List Int
  fdemod : List (COMP R)
  stdout : List Int
  stderr : List (LogLine R)
  deriving DecidableEq

/-- The variables carried by the interferer loop (lines 80-88). -/
structure InterfererVars (R : Type) where
  interferer_phase : COMP R
  power_interferer : R
  power_d : R
  deriving DecidableEq

/-- The values of one pass of the interferer loop: the locals `a` and `d`, and the value
left in `demod_in_comp[i]`. -/
structure SampleVars (R : Type) where
  a : COMP R
  d : COMP R
  demod_in_comp : COMP R
  deriving DecidableEq

/-- The call `fread(ptr, sizeof(short), nmemb, stdin)`: the items read (fewer than `nmemb`
at end of input) and the rest of the stream. -/
def fread (nmemb : Nat) (stream : List Int) : List Int × List Int :=
  (stream.take nmemb, stream.drop nmemb)

/-- Lines 59-63: the first `nin` complex samples from the interleaved buffer. -/
def deinterleave {R : Type} [Field R] (nin : Nat) (demod_in : List Int) : List (COMP R) :=
  (List.range nin).map fun i =>
    ⟨((demod_in.getD (2 * i) 0 : Int) : R), ((demod_in.getD (2 * i + 1) 0 : Int) : R)⟩

/-- Lines 72-73: `demod_in_comp[i].imag = 0.0`. -/
def zero_imag {R : Type} [Field R] (c : COMP R) : COMP R :=
  { c with imag := 0 }

/-- Lines 81-87: the body of the interferer loop for the frame sample `x`. -/
def interferer_sample {R : Type} [Field R] (interferer_freq : COMP R)
    (v : InterfererVars R) (x : COMP R) : SampleVars R × InterfererVars R :=
  let a := fcmult 10000 v.interferer_phase
  let interferer_phase := cmult v.interferer_phase interferer_freq
  let power_interferer := v.power_interferer + (a.real * a.real + a.imag * a.imag)
  let d := x
  let power_d := v.power_d + (d.real * d.real + d.imag * d.imag)
  (⟨a, d, zero_imag (cadd d a)⟩, ⟨interferer_phase, power_interferer, power_d⟩)

/-- Lines 80-88: the interferer loop over the frame. -/
def interferer_loop {R : Type} [Field R] (interferer_freq : COMP R) :
    List (COMP R) → InterfererVars R → List (SampleVars R) × InterfererVars R
  | [], v => ([], v)
  | x :: xs, v =>
    let r := interferer_sample interferer_freq v x
    let rs := interferer_loop interferer_freq xs r.2
    (r.1 :: rs.1, rs.2)

/-- Lines 59-73: the frame as it stands before the interferer loop (converted, shifted,
imaginary part zeroed), and the new `phase_ch`. -/
def signal_path {R σ : Type} [Field R] (lm : Libm R) (foff_hz : R) (st : MainState σ R)
    (demod_in : List Int) : List (COMP R) × COMP R :=
  let r := fdmdv_freq_shift_coh lm (deinterleave st.nin demod_in) foff_hz
    (FREEDV_FS_8000 : R) st.phase_ch
  (r.1.map zero_imag, r.2)

/-- Lines 59-88 for the frame read from the head of `stdin`: per sample the locals `a`, `d`
and the composite sample. -/
def frame_samples {R σ : Type} [Field R] (lm : Libm R) (foff_hz : R) (st : MainState σ R) :
    List (SampleVars R) :=
  (interferer_loop st.interferer_freq
    (signal_path lm foff_hz st (fread (2 * st.nin) st.stdin).1).1
    ⟨st.interferer_phase, st.power_interferer, st.power_d⟩).1

/-- Lines 58-99, one evaluation of the loop condition followed, when the read is complete,
by the loop body.  `none` when `fread` returns fewer than `2*nin` items. -/
def loopBody {R σ : Type} [Field R] (fv : Freedv σ R) (lm : Libm R) (foff_hz : R)
    (st : MainState σ R) : Option (MainState σ R) :=
  let rd := fread (2 * st.nin) st.stdin
  if rd.1.length = 2 * st.nin then
    let sp := signal_path lm foff_hz st rd.1
    let il := interferer_loop st.interferer_freq sp.1
      ⟨st.interferer_phase, st.power_interferer, st.power_d⟩
    let demod_in_comp := il.1.map fun s => s.demod_in_comp
    let rx := fv.freedv_comprx st.freedv demod_in_comp
    let stats := fv.freedv_get_modem_stats rx.1
    some
      { freedv := rx.1
        nin := fv.freedv_nin rx.1
        phase_ch := sp.2
        interferer_phase := il.2.interferer_phase
        interferer_freq := st.interferer_freq
        power_d := il.2.power_d
        power_interferer := il.2.power_interferer
        stdin := rd.2
        fdemod := st.fdemod ++ demod_in_comp
        stdout := st.stdout ++ rx.2
        stderr := st.stderr ++ [LogLine.frame stats.1 stats.2] }
  else none

/-- Lines 58-99: the `while` loop, with a bound on the number of evaluations of its
condition.  The state returned is the one in which the read fell short, with the stream
advanced past the items of that last read. -/
def mainLoop {R σ : Type} [Field R] (fv : Freedv σ R) (lm : Libm R) (foff_hz : R) :
    Nat → MainState σ R → Option (MainState σ R)
  | 0, _ => none
  | fuel + 1, st =>
    match loopBody fv lm foff_hz st with
    | none => some { st with stdin := (fread (2 * st.nin) st.stdin).2 }
    | some st' => mainLoop fv lm foff_hz fuel st'

/-- Lines 25-56: the state on entry to the loop.  `arg` is the optional command-line
offset, already converted by `atof`. -/
def mainInit {R σ : Type} [Field R] (fv : Freedv σ R) (lm : Libm R) (arg : Option R)
    (stdin : List Int) : MainState σ R :=
  let freedv := fv.freedv_open
  let interferer_freq : COMP R :=
    ⟨lm.cos (2 * lm.M_PI * fv.tx_centre freedv / (FREEDV_FS_8000 : R)),
     lm.sin (2 * lm.M_PI * fv.tx_centre freedv / (FREEDV_FS_8000 : R))⟩
  { freedv := freedv
    nin := fv.freedv_nin freedv
    phase_ch := ⟨1, 0⟩
    interferer_phase := ⟨1, 0⟩
    interferer_freq := cconj interferer_freq
    power_d := 0
    power_interferer := 0
    stdin := stdin
    fdemod := []
    stdout := []
    stderr := match arg with
      | some f => [LogLine.foff f]
      | none => [] }

/-- Lines 25-29: the offset frequency, 0 unless an argument is given. -/
def foff_of_arg {R : Type} [Field R] (arg : Option R) : R :=
  match arg with
  | some f => f
  | none => 0

/-- The program: set-up, the loop, and the power report of line 104. -/
def main {R σ : Type} [Field R] (fv : Freedv σ R) (lm : Libm R) (arg : Option R)
    (stdin : List Int) (fuel : Nat) : Option (MainState σ R) :=
  match mainLoop fv lm (foff_of_arg arg) fuel (mainInit fv lm arg stdin) with
  | none => none
  | some st =>
    some { st with
      stderr := st.stderr ++ [LogLine.power (10 * lm.log10 (st.power_d / st.power_interferer))] }

/-- A demodulator that asks for `n` samples every time and decodes nothing, with carrier
`fc`. -/
def const_demod (R : Type) [Field R] (fc : R) (n : Nat) : Freedv Unit R where
  freedv_open := ()
  tx_centre := fun _ => fc
  freedv_nin := fun _ => n
  freedv_comprx := fun s _ => (s, [])
  freedv_get_modem_stats := fun _ => (0, 0)

/-- A stand-in for the C library over the rationals, for evaluating the harness where the
values of `cos` and `sin` do not matter. -/
def rat_libm : Libm ℚ where
  cos := fun _ => 1
  sin := fun _ => 0
  log10 := fun _ => 0
  M_PI := 3

/-! ## The run as a sequence of iterations -/

/-- The state at the head of the loop after `k` executed iterations, `none` when the run
stops earlier. -/
def iter {R σ : Type} [Field R] (fv : Freedv σ R) (lm : Libm R) (foff_hz : R) :
    Nat → MainState σ R → Option (MainState σ R)
  | 0, st => some st
  | k + 1, st =>
    match loopBody fv lm foff_hz st with
    | none => none
    | some st' => iter fv lm foff_hz k st'

/-- The values of `nin` of the executed iterations, among the first `k`. -/
def run_nins {R σ : Type} [Field R] (fv : Freedv σ R) (lm : Libm R) (foff_hz : R) :
    Nat → MainState σ R → List Nat
  | 0, _ => []
  | k + 1, st =>
    match loopBody fv lm foff_hz st with
    | none => []
    | some st' => st.nin :: run_nins fv lm foff_hz k st'

/-- The per-sample values of the executed iterations, among the first `k`, in order. -/
def run_samples {R σ : Type} [Field R] (fv : Freedv σ R) (lm : Libm R) (foff_hz : R) :
    Nat → MainState σ R → List (SampleVars R)
  | 0, _ => []
  | k + 1, st =>
    match loopBody fv lm foff_hz st with
    | none => []
    | some st' => frame_samples lm foff_hz st ++ run_samples fv lm foff_hz k st'

/-- The phasor after `n` more samples: `n` times `phase = cmult(phase, freq)` (the update
of line 82, and of the Frequency Shift Operator). -/
def advance {R : Type} [Field R] (freq : COMP R) : Nat → COMP R → COMP R
  | 0, phase => phase
  | n + 1, phase => advance freq n (cmult phase freq)

/-- The Frequency Shift Operator applied to a sequence of frames, the phasor state of each
call handed to the next, as the loop of `main` does with `phase_ch`. -/
def freq_shift_frames {R : Type} [Field R] (lm : Libm R) (foff Fs : R) :
    List (List (COMP R)) → COMP R → List (List (COMP R)) × COMP R
  | [], phase => ([], phase)
  | fr :: frs, phase =>
    let r := fdmdv_freq_shift_coh lm fr foff Fs phase
    let rs := freq_shift_frames lm foff Fs frs r.2
    (r.1 :: rs.1, rs.2)

/-! ## Lengths and the loop condition -/

theorem fread_fst_length (n : Nat) (s : List Int) :
    (fread n s).1.length = n ↔ n ≤ s.length := by
  simp [fread, List.length_take]

theorem freq_shift_loop_length {R : Type} [Field R] (f : COMP R) (xs : List (COMP R))
    (ph : COMP R) : (freq_shift_loop f xs ph).1.length = xs.length := by
  induction xs generalizing ph with
  | nil => simp [freq_shift_loop]
  | cons x xs ih => simp [freq_shift_loop, ih]

theorem interferer_loop_length {R : Type} [Field R] (f : COMP R) (xs : List (COMP R))
    (v : InterfererVars R) : (interferer_loop f xs v).1.length = xs.length := by
  induction xs generalizing v with
  | nil => simp [interferer_loop]
  | cons x xs ih => simp [interferer_loop, ih]

theorem deinterleave_length {R : Type} [Field R] (n : Nat) (b : List Int) :
    (deinterleave n b : List (COMP R)).length = n := by
  simp [deinterleave]

theorem signal_path_length {R σ : Type} [Field R] (lm : Libm R) (foff : R)
    (st : MainState σ R) (b : List Int) : (signal_path lm foff st b).1.length = st.nin := by
  simp [signal_path, fdmdv_freq_shift_coh, freq_shift_loop_length, deinterleave_length]

theorem frame_samples_length {R σ : Type} [Field R] (lm : Libm R) (foff : R)
    (st : MainState σ R) : (frame_samples lm foff st).length = st.nin := by
  simp [frame_samples, interferer_loop_length, signal_path_length]

theorem loopBody_eq_none_iff {R σ : Type} [Field R] (fv : Freedv σ R) (lm : Libm R)
    (foff : R) (st : MainState σ R) :
    loopBody fv lm foff st = none ↔ st.stdin.length < 2 * st.nin := by
  unfold loopBody
  simp only [fread_fst_length]
  split <;> simp <;> omega

/-- What one executed iteration does to the state. -/
theorem loopBody_some {R σ : Type} [Field R] (fv : Freedv σ R) (lm : Libm R) (foff : R)
    (st st' : MainState σ R) (h : loopBody fv lm foff st = some st') :
    2 * st.nin ≤ st.stdin.length ∧
    st'.stdin = st.stdin.drop (2 * st.nin) ∧
    st'.fdemod = st.fdemod ++ (frame_samples lm foff st).map (fun s => s.demod_in_comp) ∧
    st'.freedv = (fv.freedv_comprx st.freedv
      ((frame_samples lm foff st).map (fun s => s.demod_in_comp))).1 ∧
    st'.stdout = st.stdout ++ (fv.freedv_comprx st.freedv
      ((frame_samples lm foff st).map (fun s => s.demod_in_comp))).2 ∧
    st'.nin = fv.freedv_nin st'.freedv ∧
    st'.interferer_freq = st.interferer_freq ∧
    st'.stderr = st.stderr ++ [LogLine.frame (fv.freedv_get_modem_stats st'.freedv).1
      (fv.freedv_get_modem_stats st'.freedv).2] := by
  unfold loopBody at h
  simp only [fread_fst_length] at h
  split at h
  · rename_i hle
    simp only [Option.some.injEq] at h
    subst h
    refine ⟨hle, ?_, ?_, ?_, ?_, ?_, ?_, ?_⟩ <;> simp [fread, frame_samples]
  · exact absurd h (by simp)

theorem loopBody_phases {R σ : Type} [Field R] (fv : Freedv σ R) (lm : Libm R) (foff : R)
    (st st' : MainState σ R) (h : loopBody fv lm foff st = some st') :
    st'.phase_ch = (signal_path lm foff st (fread (2 * st.nin) st.stdin).1).2 ∧
    st'.interferer_phase = (interferer_loop st.interferer_freq
      (signal_path lm foff st (fread (2 * st.nin) st.stdin).1).1
      ⟨st.interferer_phase, st.power_interferer, st.power_d⟩).2.interferer_phase ∧
    st'.power_interferer = (interferer_loop st.interferer_freq
      (signal_path lm foff st (fread (2 * st.nin) st.stdin).1).1
      ⟨st.interferer_phase, st.power_interferer, st.power_d⟩).2.power_interferer ∧
    st'.power_d = (interferer_loop st.interferer_freq
      (signal_path lm foff st (fread (2 * st.nin) st.stdin).1).1
      ⟨st.interferer_phase, st.power_interferer, st.power_d⟩).2.power_d := by
  unfold loopBody at h
  dsimp only at h
  split at h
  · simp only [Option.some.injEq] at h
    subst h
    exact ⟨rfl, rfl, rfl, rfl⟩
  · exact absurd h (by simp)

/-! ## The run: iterations, the loop and its bound -/

theorem iter_succ_some {R σ : Type} [Field R] (fv : Freedv σ R) (lm : Libm R) (foff : R)
    (k : Nat) (st stk : MainState σ R) (h : iter fv lm foff (k + 1) st = some stk) :
    ∃ st1, loopBody fv lm foff st = some st1 ∧ iter fv lm foff k st1 = some stk := by
  unfold iter at h
  split at h
  · exact absurd h (by simp)
  · rename_i st1 h1
    exact ⟨st1, h1, h⟩

theorem iter_of_loopBody {R σ : Type} [Field R] (fv : Freedv σ R) (lm : Libm R) (foff : R)
    (k : Nat) (st st1 : MainState σ R) (h1 : loopBody fv lm foff st = some st1) :
    iter fv lm foff (k + 1) st = iter fv lm foff k st1 := by
  rw [iter]
  simp [h1]

theorem run_nins_of_loopBody {R σ : Type} [Field R] (fv : Freedv σ R) (lm : Libm R)
    (foff : R) (k : Nat) (st st1 : MainState σ R) (h1 : loopBody fv lm foff st = some st1) :
    run_nins fv lm foff (k + 1) st = st.nin :: run_nins fv lm foff k st1 := by
  rw [run_nins]
  simp [h1]

theorem run_samples_of_loopBody {R σ : Type} [Field R] (fv : Freedv σ R) (lm : Libm R)
    (foff : R) (k : Nat) (st st1 : MainState σ R) (h1 : loopBody fv lm foff st = some st1) :
    run_samples fv lm foff (k + 1) st
      = frame_samples lm foff st ++ run_samples fv lm foff k st1 := by
  rw [run_samples]
  simp [h1]

/-- The loop returns exactly when some number of iterations below the bound leads to a
state in which the read falls short. -/
theorem mainLoop_eq_some_iff {R σ : Type} [Field R] (fv : Freedv σ R) (lm : Libm R)
    (foff : R) (fuel : Nat) (st fin : MainState σ R) :
    mainLoop fv lm foff fuel st = some fin ↔
      ∃ k stk, k < fuel ∧ iter fv lm foff k st = some stk ∧
        stk.stdin.length < 2 * stk.nin ∧
        fin = { stk with stdin := (fread (2 * stk.nin) stk.stdin).2 } := by
  induction fuel generalizing st with
  | zero => simp [mainLoop]
  | succ fuel ih =>
    rw [mainLoop]
    cases h1 : loopBody fv lm foff st with
    | none =>
      have hlt := (loopBody_eq_none_iff fv lm foff st).1 h1
      constructor
      · intro h
        simp only [Option.some.injEq] at h
        exact ⟨0, st, Nat.succ_pos _, rfl, hlt, h.symm⟩
      · rintro ⟨k, stk, _, hk, _, hfin⟩
        cases k with
        | zero =>
          simp only [iter, Option.some.injEq] at hk
          subst hk
          simp [hfin]
        | succ k =>
          obtain ⟨st1, hst1, _⟩ := iter_succ_some fv lm foff k st stk hk
          rw [h1] at hst1
          exact absurd hst1 (by simp)
    | some st1 =>
      simp only
      rw [ih st1]
      constructor
      · rintro ⟨k, stk, hk, hit, hlt, hfin⟩
        refine ⟨k + 1, stk, Nat.succ_lt_succ hk, ?_, hlt, hfin⟩
        rw [iter_of_loopBody fv lm foff k st st1 h1]
        exact hit
      · rintro ⟨k, stk, hk, hit, hlt, hfin⟩
        cases k with
        | zero =>
          simp only [iter, Option.some.injEq] at hit
          subst hit
          have := (loopBody_eq_none_iff fv lm foff st).2 hlt
          rw [h1] at this
          exact absurd this (by simp)
        | succ k =>
          rw [iter_of_loopBody fv lm foff k st st1 h1] at hit
          exact ⟨k, stk, Nat.lt_of_succ_lt_succ hk, hit, hlt, hfin⟩

/-- Earlier loop heads of a run exist. -/
theorem iter_prev {R σ : Type} [Field R] (fv : Freedv σ R) (lm : Libm R) (foff : R)
    (k : Nat) (st stk : MainState σ R) (h : iter fv lm foff k st = some stk) (j : Nat)
    (hj : j ≤ k) : ∃ stj, iter fv lm foff j st = some stj ∧
      iter fv lm foff (k - j) stj = some stk := by
  induction j generalizing k st with
  | zero => exact ⟨st, rfl, by simpa using h⟩
  | succ j ih =>
    cases k with
    | zero => omega
    | succ k =>
      obtain ⟨st1, h1, hk⟩ := iter_succ_some fv lm foff k st stk h
      obtain ⟨stj, hj1, hj2⟩ := ih k st1 hk (by omega)
      refine ⟨stj, ?_, ?_⟩
      · rw [iter_of_loopBody fv lm foff j st st1 h1]
        exact hj1
      · have : k + 1 - (j + 1) = k - j := by omega
        rw [this]
        exact hj2

/-- Bookkeeping of a run of `k` iterations: the requests, the input consumed, the samples
processed and the diagnostic sink. -/
theorem iter_framing {R σ : Type} [Field R] (fv : Freedv σ R) (lm : Libm R) (foff : R)
    (k : Nat) (st stk : MainState σ R) (h : iter fv lm foff k st = some stk) :
    (run_nins fv lm foff k st).length = k ∧
    2 * (run_nins fv lm foff k st).sum ≤ st.stdin.length ∧
    stk.stdin = st.stdin.drop (2 * (run_nins fv lm foff k st).sum) ∧
    (run_samples fv lm foff k st).length = (run_nins fv lm foff k st).sum ∧
    stk.fdemod = st.fdemod ++ (run_samples fv lm foff k st).map (fun s => s.demod_in_comp) ∧
    stk.interferer_freq = st.interferer_freq := by
  induction k generalizing st with
  | zero =>
    simp only [iter, Option.some.injEq] at h
    subst h
    simp [run_nins, run_samples]
  | succ k ih =>
    obtain ⟨st1, h1, hk⟩ := iter_succ_some fv lm foff k st stk h
    obtain ⟨i1, i2, i3, i4, i5, i6⟩ := ih st1 hk
    obtain ⟨b1, b2, b3, _, _, _, b7, _⟩ := loopBody_some fv lm foff st st1 h1
    rw [run_nins_of_loopBody fv lm foff k st st1 h1,
      run_samples_of_loopBody fv lm foff k st st1 h1]
    have hlen : st1.stdin.length = st.stdin.length - 2 * st.nin := by
      rw [b2, List.length_drop]
    refine ⟨by simp [i1], ?_, ?_, ?_, ?_, ?_⟩
    · simp only [List.sum_cons]
      omega
    · rw [i3, b2, List.drop_drop]
      congr 1
      simp only [List.sum_cons]
      ring
    · simp [i4, frame_samples_length]
    · rw [i5, b3]
      simp
    · rw [i6, b7]

/-- The request of iteration `j` is the `nin` of the state at its loop head. -/
theorem run_nins_get {R σ : Type} [Field R] (fv : Freedv σ R) (lm : Libm R) (foff : R)
    (k : Nat) (st stk : MainState σ R) (h : iter fv lm foff k st = some stk) (j : Nat)
    (hj : j < k) (stj : MainState σ R) (hstj : iter fv lm foff j st = some stj) :
    (run_nins fv lm foff k st)[j]? = some stj.nin := by
  induction k generalizing st j with
  | zero => omega
  | succ k ih =>
    obtain ⟨st1, h1, hk⟩ := iter_succ_some fv lm foff k st stk h
    rw [run_nins_of_loopBody fv lm foff k st st1 h1]
    cases j with
    | zero =>
      simp only [iter, Option.some.injEq] at hstj
      subst hstj
      simp
    | succ j =>
      rw [iter_of_loopBody fv lm foff j st st1 h1] at hstj
      simpa using ih st1 hk j (by omega) hstj

/-- Once the read falls short, a larger bound adds no iteration. -/
theorem run_stops {R σ : Type} [Field R] (fv : Freedv σ R) (lm : Libm R) (foff : R)
    (k : Nat) (st stk : MainState σ R) (h : iter fv lm foff k st = some stk)
    (hlt : stk.stdin.length < 2 * stk.nin) (fuel : Nat) (hf : k ≤ fuel) :
    run_nins fv lm foff fuel st = run_nins fv lm foff k st ∧
    run_samples fv lm foff fuel st = run_samples fv lm foff k st := by
  induction k generalizing st fuel with
  | zero =>
    simp only [iter, Option.some.injEq] at h
    subst h
    have hn := (loopBody_eq_none_iff fv lm foff st).2 hlt
    cases fuel with
    | zero => exact ⟨rfl, rfl⟩
    | succ fuel => simp [run_nins, run_samples, hn]
  | succ k ih =>
    obtain ⟨st1, h1, hk⟩ := iter_succ_some fv lm foff k st stk h
    cases fuel with
    | zero => omega
    | succ fuel =>
      obtain ⟨e1, e2⟩ := ih st1 hk fuel (by omega)
      rw [run_nins_of_loopBody fv lm foff fuel st st1 h1,
        run_nins_of_loopBody fv lm foff k st st1 h1,
        run_samples_of_loopBody fv lm foff fuel st st1 h1,
        run_samples_of_loopBody fv lm foff k st st1 h1, e1, e2]
      exact ⟨rfl, rfl⟩

/-- The result of `main` in terms of the loop. -/
theorem main_eq_some_iff {R σ : Type} [Field R] (fv : Freedv σ R) (lm : Libm R)
    (arg : Option R) (input : List Int) (fuel : Nat) (fin : MainState σ R) :
    main fv lm arg input fuel = some fin ↔
      ∃ st, mainLoop fv lm (foff_of_arg arg) fuel (mainInit fv lm arg input) = some st ∧
        fin = { st with stderr := st.stderr ++
          [LogLine.power (10 * lm.log10 (st.power_d / st.power_interferer))] } := by
  unfold main
  cases mainLoop fv lm (foff_of_arg arg) fuel (mainInit fv lm arg input) with
  | none => simp
  | some st =>
    simp only [Option.some.injEq, exists_eq_left']
    exact eq_comm

/-- After the first one, every request is a value returned by `freedv_nin`. -/
theorem iter_nin {R σ : Type} [Field R] (fv : Freedv σ R) (lm : Libm R) (foff : R)
    (k : Nat) (st stk : MainState σ R) (h : iter fv lm foff k st = some stk) :
    stk.nin = st.nin ∨ ∃ s, stk.nin = fv.freedv_nin s := by
  induction k generalizing st with
  | zero =>
    simp only [iter, Option.some.injEq] at h
    subst h
    exact Or.inl rfl
  | succ k ih =>
    obtain ⟨st1, h1, hk⟩ := iter_succ_some fv lm foff k st stk h
    obtain ⟨_, _, _, _, _, b6, _, _⟩ := loopBody_some fv lm foff st st1 h1
    rcases ih st1 hk with e | ⟨s, e⟩
    · exact Or.inr ⟨st1.freedv, by rw [e, b6]⟩
    · exact Or.inr ⟨s, e⟩

/-- With every request at least 1 the read falls short after at most half as many
iterations as there are raw values. -/
theorem iter_terminates {R σ : Type} [Field R] (fv : Freedv σ R) (lm : Libm R) (foff : R)
    (n : Nat) (st : MainState σ R) (hn : st.stdin.length ≤ n)
    (hnin : ∀ k st', iter fv lm foff k st = some st' → 1 ≤ st'.nin) :
    ∃ k stk, 2 * k ≤ st.stdin.length ∧ iter fv lm foff k st = some stk ∧
      stk.stdin.length < 2 * stk.nin := by
  induction n using Nat.strong_induction_on generalizing st with
  | _ n ih =>
    cases h1 : loopBody fv lm foff st with
    | none =>
      exact ⟨0, st, Nat.zero_le _, rfl, (loopBody_eq_none_iff fv lm foff st).1 h1⟩
    | some st1 =>
      obtain ⟨b1, b2, _⟩ := loopBody_some fv lm foff st st1 h1
      have h0 : 1 ≤ st.nin := hnin 0 st rfl
      have hlen : st1.stdin.length = st.stdin.length - 2 * st.nin := by
        rw [b2, List.length_drop]
      have hnin1 : ∀ k st', iter fv lm foff k st1 = some st' → 1 ≤ st'.nin := by
        intro k st' hk
        apply hnin (k + 1) st'
        rw [iter_of_loopBody fv lm foff k st st1 h1]
        exact hk
      obtain ⟨k, stk, hk, hit, hlt⟩ :=
        ih st1.stdin.length (by omega) st1 (Nat.le_refl _) hnin1
      refine ⟨k + 1, stk, by omega, ?_, hlt⟩
      rw [iter_of_loopBody fv lm foff k st st1 h1]
      exact hit

/-! ## Phasors and the two per-sample loops -/

theorem advance_add {R : Type} [Field R] (f : COMP R) (m n : Nat) (ph : COMP R) :
    advance f (m + n) ph = advance f n (advance f m ph) := by
  induction m generalizing ph with
  | zero => simp [advance]
  | succ m ih =>
    have : m + 1 + n = (m + n) + 1 := by omega
    rw [this, advance, advance, ih]

theorem sqmag_cmult {R : Type} [Field R] (a b : COMP R) :
    sqmag (cmult a b) = sqmag a * sqmag b := by
  simp only [sqmag, cmult]
  ring

theorem sqmag_advance {R : Type} [Field R] (f : COMP R) (hf : sqmag f = 1) (n : Nat)
    (ph : COMP R) : sqmag (advance f n ph) = sqmag ph := by
  induction n generalizing ph with
  | zero => rfl
  | succ n ih => rw [advance, ih, sqmag_cmult, hf, mul_one]

theorem freq_shift_loop_snd {R : Type} [Field R] (f : COMP R) (xs : List (COMP R))
    (ph : COMP R) : (freq_shift_loop f xs ph).2 = advance f xs.length ph := by
  induction xs generalizing ph with
  | nil => rfl
  | cons x xs ih => simp [freq_shift_loop, advance, ih]

theorem freq_shift_loop_get {R : Type} [Field R] (f : COMP R) (xs : List (COMP R))
    (ph : COMP R) (i : Nat) :
    (freq_shift_loop f xs ph).1[i]? = xs[i]?.map (fun x => cmult x (advance f i ph)) := by
  induction xs generalizing ph i with
  | nil => simp [freq_shift_loop]
  | cons x xs ih =>
    cases i with
    | zero => simp [freq_shift_loop, advance]
    | succ i => simp [freq_shift_loop, advance, ih]

theorem freq_shift_loop_append {R : Type} [Field R] (f : COMP R) (xs ys : List (COMP R))
    (ph : COMP R) :
    freq_shift_loop f (xs ++ ys) ph
      = ((freq_shift_loop f xs ph).1 ++ (freq_shift_loop f ys (freq_shift_loop f xs ph).2).1,
         (freq_shift_loop f ys (freq_shift_loop f xs ph).2).2) := by
  induction xs generalizing ph with
  | nil => simp [freq_shift_loop]
  | cons x xs ih => simp [freq_shift_loop, ih]

theorem interferer_loop_phase {R : Type} [Field R] (f : COMP R) (xs : List (COMP R))
    (v : InterfererVars R) :
    (interferer_loop f xs v).2.interferer_phase = advance f xs.length v.interferer_phase := by
  induction xs generalizing v with
  | nil => rfl
  | cons x xs ih => simp [interferer_loop, interferer_sample, advance, ih]

theorem interferer_loop_get {R : Type} [Field R] (f : COMP R) (xs : List (COMP R))
    (v : InterfererVars R) (i : Nat) :
    (interferer_loop f xs v).1[i]? = xs[i]?.map (fun x =>
      ⟨fcmult 10000 (advance f i v.interferer_phase), x,
        zero_imag (cadd x (fcmult 10000 (advance f i v.interferer_phase)))⟩) := by
  induction xs generalizing v i with
  | nil => simp [interferer_loop]
  | cons x xs ih =>
    cases i with
    | zero => simp [interferer_loop, interferer_sample, advance]
    | succ i => simp [interferer_loop, interferer_sample, advance, ih]

theorem interferer_loop_power {R : Type} [Field R] (f : COMP R) (xs : List (COMP R))
    (v : InterfererVars R) :
    (interferer_loop f xs v).2.power_d
      = v.power_d + ((interferer_loop f xs v).1.map (fun s => sqmag s.d)).sum ∧
    (interferer_loop f xs v).2.power_interferer
      = v.power_interferer + ((interferer_loop f xs v).1.map (fun s => sqmag s.a)).sum := by
  induction xs generalizing v with
  | nil => simp [interferer_loop]
  | cons x xs ih =>
    obtain ⟨h1, h2⟩ := ih (interferer_sample f v x).2
    simp only [interferer_loop, List.map_cons, List.sum_cons]
    rw [h1, h2]
    simp only [interferer_sample, sqmag]
    constructor <;> ring

/-- The state after `k` iterations: both phasors have advanced once per processed sample
and both totals have grown by the squared magnitudes of the samples of their path. -/
theorem iter_phasors {R σ : Type} [Field R] (fv : Freedv σ R) (lm : Libm R) (foff : R)
    (k : Nat) (st stk : MainState σ R) (h : iter fv lm foff k st = some stk) :
    stk.phase_ch = advance
      ⟨lm.cos (2 * lm.M_PI * foff / (FREEDV_FS_8000 : R)),
       lm.sin (2 * lm.M_PI * foff / (FREEDV_FS_8000 : R))⟩
      (run_nins fv lm foff k st).sum st.phase_ch ∧
    stk.interferer_phase
      = advance st.interferer_freq (run_nins fv lm foff k st).sum st.interferer_phase ∧
    stk.power_d
      = st.power_d + ((run_samples fv lm foff k st).map (fun s => sqmag s.d)).sum ∧
    stk.power_interferer
      = st.power_interferer + ((run_samples fv lm foff k st).map (fun s => sqmag s.a)).sum := by
  induction k generalizing st with
  | zero =>
    simp only [iter, Option.some.injEq] at h
    subst h
    simp [run_nins, run_samples, advance]
  | succ k ih =>
    obtain ⟨st1, h1, hk⟩ := iter_succ_some fv lm foff k st stk h
    obtain ⟨i1, i2, i3, i4⟩ := ih st1 hk
    obtain ⟨p1, p2, p3, p4⟩ := loopBody_phases fv lm foff st st1 h1
    obtain ⟨_, _, _, _, _, _, b7, _⟩ := loopBody_some fv lm foff st st1 h1
    obtain ⟨q1, q2⟩ := interferer_loop_power st.interferer_freq
      (signal_path lm foff st (fread (2 * st.nin) st.stdin).1).1
      ⟨st.interferer_phase, st.power_interferer, st.power_d⟩
    rw [run_nins_of_loopBody fv lm foff k st st1 h1,
      run_samples_of_loopBody fv lm foff k st st1 h1]
    simp only [List.sum_cons, List.map_append, List.sum_append]
    refine ⟨?_, ?_, ?_, ?_⟩
    · rw [i1, p1, advance_add]
      simp [signal_path, fdmdv_freq_shift_coh, freq_shift_loop_snd, deinterleave_length]
    · rw [i2, p2, b7, advance_add, interferer_loop_phase, signal_path_length]
    · rw [i3, p4, q1, add_assoc]
      rfl
    · rw [i4, p3, q2, add_assoc]
      rfl

/-- The values of the `i`-th processed sample of a run: the interferer sample is `1E4`
times the interferer phasor advanced `i` times, and the composite sample is the real part
of the sum. -/
theorem run_samples_get {R σ : Type} [Field R] (fv : Freedv σ R) (lm : Libm R) (foff : R)
    (k : Nat) (st : MainState σ R) (i : Nat) (s : SampleVars R)
    (h : (run_samples fv lm foff k st)[i]? = some s) :
    s.a = fcmult 10000 (advance st.interferer_freq i st.interferer_phase) ∧
    s.demod_in_comp = zero_imag (cadd s.d s.a) := by
  induction k generalizing st i with
  | zero => simp [run_samples] at h
  | succ k ih =>
    cases h1 : loopBody fv lm foff st with
    | none => simp [run_samples, h1] at h
    | some st1 =>
      rw [run_samples_of_loopBody fv lm foff k st st1 h1] at h
      by_cases hi : i < (frame_samples lm foff st).length
      · rw [List.getElem?_append_left hi] at h
        unfold frame_samples at h
        rw [interferer_loop_get] at h
        simp only [Option.map_eq_some'] at h
        obtain ⟨x, _, hx⟩ := h
        subst hx
        exact ⟨rfl, rfl⟩
      · rw [List.getElem?_append_right (Nat.le_of_not_lt hi)] at h
        obtain ⟨e1, e2⟩ := ih st1 _ h
        obtain ⟨_, p2, _, _⟩ := loopBody_phases fv lm foff st st1 h1
        obtain ⟨_, _, _, _, _, _, b7, _⟩ := loopBody_some fv lm foff st st1 h1
        refine ⟨?_, e2⟩
        rw [e1, b7, p2, interferer_loop_phase, signal_path_length, ← advance_add]
        rw [frame_samples_length] at hi ⊢
        congr 2
        omega

/-! ## Framing and termination -/

/-- C1: framing of the streaming loop of `main`.  For every input stream and every
demodulator: the first request is the library default; an executed iteration removes
exactly `2*nin` raw values from the input and the next request is the value `freedv_nin`
returns after the decode of that frame; after `k` executed iterations the input consumed is
twice the sum of the `k` requests and the number of samples processed, and of entries in
the diagnostic sink, is that sum; the program returns exactly when, after some number of
iterations, fewer than `2*nin` raw values remain, every earlier loop head having had
enough. -/
theorem main_framing {R σ : Type} [Field R] (fv : Freedv σ R) (lm : Libm R)
    (arg : Option R) (input : List Int) :
    (mainInit fv lm arg input).nin = fv.freedv_nin fv.freedv_open ∧
    (∀ st st', loopBody fv lm (foff_of_arg arg) st = some st' →
      st'.stdin = st.stdin.drop (2 * st.nin) ∧
      st'.stdin.length + 2 * st.nin = st.stdin.length ∧
      st'.nin = fv.freedv_nin (fv.freedv_comprx st.freedv
        ((frame_samples lm (foff_of_arg arg) st).map (fun s => s.demod_in_comp))).1) ∧
    (∀ k stk, iter fv lm (foff_of_arg arg) k (mainInit fv lm arg input) = some stk →
      (run_nins fv lm (foff_of_arg arg) k (mainInit fv lm arg input)).length = k ∧
      (∀ j stj, j < k →
        iter fv lm (foff_of_arg arg) j (mainInit fv lm arg input) = some stj →
        (run_nins fv lm (foff_of_arg arg) k (mainInit fv lm arg input))[j]? = some stj.nin ∧
        2 * stj.nin ≤ stj.stdin.length) ∧
      stk.stdin
        = input.drop (2 * (run_nins fv lm (foff_of_arg arg) k (mainInit fv lm arg input)).sum) ∧
      stk.stdin.length
        + 2 * (run_nins fv lm (foff_of_arg arg) k (mainInit fv lm arg input)).sum
        = input.length ∧
      (run_samples fv lm (foff_of_arg arg) k (mainInit fv lm arg input)).length
        = (run_nins fv lm (foff_of_arg arg) k (mainInit fv lm arg input)).sum ∧
      stk.fdemod.length
        = (run_nins fv lm (foff_of_arg arg) k (mainInit fv lm arg input)).sum) ∧
    (∀ fuel fin, main fv lm arg input fuel = some fin ↔
      ∃ k stk, k < fuel ∧
        iter fv lm (foff_of_arg arg) k (mainInit fv lm arg input) = some stk ∧
        stk.stdin.length < 2 * stk.nin ∧
        fin = { stk with
          stdin := (fread (2 * stk.nin) stk.stdin).2
          stderr := stk.stderr ++
            [LogLine.power (10 * lm.log10 (stk.power_d / stk.power_interferer))] }) ∧
    (∀ fuel fin, main fv lm arg input fuel = some fin →
      fin.fdemod.length
        = (run_nins fv lm (foff_of_arg arg) fuel (mainInit fv lm arg input)).sum ∧
      fin.fdemod = (run_samples fv lm (foff_of_arg arg) fuel (mainInit fv lm arg input)).map
        (fun s => s.demod_in_comp) ∧
      input.length
        - 2 * (run_nins fv lm (foff_of_arg arg) fuel (mainInit fv lm arg input)).sum
        < 2 * fin.nin) := by
  have hmain : ∀ fuel fin, main fv lm arg input fuel = some fin ↔
      ∃ k stk, k < fuel ∧
        iter fv lm (foff_of_arg arg) k (mainInit fv lm arg input) = some stk ∧
        stk.stdin.length < 2 * stk.nin ∧
        fin = { stk with
          stdin := (fread (2 * stk.nin) stk.stdin).2
          stderr := stk.stderr ++
            [LogLine.power (10 * lm.log10 (stk.power_d / stk.power_interferer))] } := by
    intro fuel fin
    rw [main_eq_some_iff]
    constructor
    · rintro ⟨st, hst, hfin⟩
      obtain ⟨k, stk, hk, hit, hlt, e⟩ :=
        (mainLoop_eq_some_iff fv lm _ fuel _ st).1 hst
      exact ⟨k, stk, hk, hit, hlt, by rw [hfin, e]⟩
    · rintro ⟨k, stk, hk, hit, hlt, e⟩
      exact ⟨_, (mainLoop_eq_some_iff fv lm _ fuel _ _).2 ⟨k, stk, hk, hit, hlt, rfl⟩, e⟩
  have hrun : ∀ k stk,
      iter fv lm (foff_of_arg arg) k (mainInit fv lm arg input) = some stk →
      stk.stdin.length
        + 2 * (run_nins fv lm (foff_of_arg arg) k (mainInit fv lm arg input)).sum
        = input.length ∧
      stk.fdemod.length
        = (run_nins fv lm (foff_of_arg arg) k (mainInit fv lm arg input)).sum := by
    intro k stk hit
    obtain ⟨_, f2, f3, f4, f5, _⟩ := iter_framing fv lm _ k _ stk hit
    have hin : (mainInit fv lm arg input).stdin = input := rfl
    have hfd : (mainInit fv lm arg input).fdemod = [] := rfl
    rw [hin] at f2 f3
    constructor
    · rw [f3, List.length_drop]
      omega
    · rw [f5, hfd]
      simp [f4]
  refine ⟨rfl, ?_, ?_, hmain, ?_⟩
  · intro st st' h
    obtain ⟨b1, b2, _, b4, _, b6, _, _⟩ := loopBody_some fv lm _ st st' h
    refine ⟨b2, ?_, ?_⟩
    · rw [b2, List.length_drop]
      omega
    · rw [b6, b4]
  · intro k stk hit
    obtain ⟨f1, f2, f3, f4, f5, _⟩ := iter_framing fv lm _ k _ stk hit
    refine ⟨f1, ?_, f3, (hrun k stk hit).1, f4, (hrun k stk hit).2⟩
    intro j stj hj hstj
    refine ⟨run_nins_get fv lm _ k _ stk hit j hj stj hstj, ?_⟩
    obtain ⟨stj', hj1, hj2⟩ := iter_prev fv lm _ k _ stk hit j (Nat.le_of_lt hj)
    rw [hstj] at hj1
    simp only [Option.some.injEq] at hj1
    subst hj1
    have hkj : k - j = (k - j - 1) + 1 := by omega
    rw [hkj] at hj2
    obtain ⟨st1, h1, _⟩ := iter_succ_some fv lm _ _ stj stk hj2
    exact (loopBody_some fv lm _ stj st1 h1).1
  · intro fuel fin hfin
    obtain ⟨k, stk, hk, hit, hlt, e⟩ := (hmain fuel fin).1 hfin
    obtain ⟨e1, e2⟩ := run_stops fv lm _ k _ stk hit hlt fuel (Nat.le_of_lt hk)
    obtain ⟨_, _, _, _, f5, _⟩ := iter_framing fv lm _ k _ stk hit
    obtain ⟨r1, r2⟩ := hrun k stk hit
    have hfd : (mainInit fv lm arg input).fdemod = [] := rfl
    rw [e1, e2]
    subst e
    refine ⟨r2, ?_, ?_⟩
    · show stk.fdemod = _
      rw [f5, hfd]
      simp
    · show _ < 2 * stk.nin
      omega

/-- C1 at a concrete run: nine raw values and a demodulator asking for 2 samples every
time give two complete frames, four entries in the sink, and one raw value left over. -/
theorem main_framing_witness :
    ∃ fin, main (const_demod ℚ 1500 2) rat_libm none [1, 2, 3, 4, 5, 6, 7, 8, 9] 10 = some fin ∧
      run_nins (const_demod ℚ 1500 2) rat_libm (foff_of_arg none) 10
        (mainInit (const_demod ℚ 1500 2) rat_libm none [1, 2, 3, 4, 5, 6, 7, 8, 9]) = [2, 2] ∧
      fin.fdemod.length
        = (run_nins (const_demod ℚ 1500 2) rat_libm (foff_of_arg none) 10
          (mainInit (const_demod ℚ 1500 2) rat_libm none [1, 2, 3, 4, 5, 6, 7, 8, 9])).sum :=
  have h : (main (const_demod ℚ 1500 2) rat_libm none [1, 2, 3, 4, 5, 6, 7, 8, 9] 10).isSome
      = true := by decide
  ⟨_, (Option.some_get h).symm, by decide,
    ((main_framing (const_demod ℚ 1500 2) rat_libm none [1, 2, 3, 4, 5, 6, 7, 8, 9]).2.2.2.2
      10 _ (Option.some_get h).symm).1⟩

/-- C10: termination of the streaming loop.  If the first request and every request
returned during the run is at least 1, then after some `k ≤ L/2` executed iterations
(`L` the number of raw input values) the read falls short, and `main` returns, having
executed exactly `k` iterations, for every bound above `k`; an iteration with `nin ≥ 1`
strictly decreases the remaining input by `2*nin ≥ 2`.  The precondition is needed: with
`nin = 0` the iteration is executed and leaves the input as it was, and with a demodulator
that always asks for 0 samples `main` returns for no bound. -/
theorem main_terminates {R σ : Type} [Field R] (fv : Freedv σ R) (lm : Libm R)
    (arg : Option R) (input : List Int) :
    ((∀ k st, iter fv lm (foff_of_arg arg) k (mainInit fv lm arg input) = some st →
        1 ≤ st.nin) →
      ∃ k stk, k ≤ input.length / 2 ∧
        iter fv lm (foff_of_arg arg) k (mainInit fv lm arg input) = some stk ∧
        stk.stdin.length < 2 * stk.nin ∧
        ∀ fuel, k < fuel → ∃ fin, main fv lm arg input fuel = some fin ∧
          (run_nins fv lm (foff_of_arg arg) fuel (mainInit fv lm arg input)).length = k) ∧
    (∀ st st', loopBody fv lm (foff_of_arg arg) st = some st' → 1 ≤ st.nin →
      st'.stdin.length + 2 * st.nin = st.stdin.length ∧
      st'.stdin.length + 2 ≤ st.stdin.length) ∧
    (∀ st, st.nin = 0 → ∃ st', loopBody fv lm (foff_of_arg arg) st = some st' ∧
      st'.stdin = st.stdin) ∧
    ((∀ s, fv.freedv_nin s = 0) → ∀ fuel, main fv lm arg input fuel = none) := by
  refine ⟨?_, ?_, ?_, ?_⟩
  · intro hnin
    obtain ⟨k, stk, hk, hit, hlt⟩ :=
      iter_terminates fv lm _ _ (mainInit fv lm arg input) (Nat.le_refl _) hnin
    have hin : (mainInit fv lm arg input).stdin = input := rfl
    rw [hin] at hk
    refine ⟨k, stk, by omega, hit, hlt, ?_⟩
    intro fuel hf
    refine ⟨_, (main_eq_some_iff fv lm arg input fuel _).2
      ⟨_, (mainLoop_eq_some_iff fv lm _ fuel _ _).2 ⟨k, stk, hf, hit, hlt, rfl⟩, rfl⟩, ?_⟩
    rw [(run_stops fv lm _ k _ stk hit hlt fuel (Nat.le_of_lt hf)).1]
    exact (iter_framing fv lm _ k _ stk hit).1
  · intro st st' h hn
    obtain ⟨b1, b2, _⟩ := loopBody_some fv lm _ st st' h
    rw [b2, List.length_drop]
    omega
  · intro st hn
    cases h : loopBody fv lm (foff_of_arg arg) st with
    | none =>
      have := (loopBody_eq_none_iff fv lm _ st).1 h
      omega
    | some st' =>
      refine ⟨st', rfl, ?_⟩
      rw [(loopBody_some fv lm _ st st' h).2.1, hn]
      simp
  · intro h0 fuel
    cases hm : main fv lm arg input fuel with
    | none => rfl
    | some fin =>
      obtain ⟨st, hst, _⟩ := (main_eq_some_iff fv lm arg input fuel fin).1 hm
      obtain ⟨k, stk, _, hit, hlt, _⟩ := (mainLoop_eq_some_iff fv lm _ fuel _ st).1 hst
      have hz : stk.nin = 0 := by
        rcases iter_nin fv lm _ k _ stk hit with e | ⟨s, e⟩
        · rw [e]
          exact h0 _
        · rw [e]
          exact h0 s
      omega

/-- C10 at concrete runs: with requests of 2 samples the loop stops within `9/2`
iterations; with requests of 0 samples `main` returns for no bound. -/
theorem main_terminates_witness :
    (∃ k stk, k ≤ [1, 2, 3, 4, 5, 6, 7, 8, 9].length / 2 ∧
      iter (const_demod ℚ 1500 2) rat_libm (foff_of_arg none) k
        (mainInit (const_demod ℚ 1500 2) rat_libm none [1, 2, 3, 4, 5, 6, 7, 8, 9]) = some stk ∧
      stk.stdin.length < 2 * stk.nin ∧
      ∀ fuel, k < fuel →
        ∃ fin, main (const_demod ℚ 1500 2) rat_libm none [1, 2, 3, 4, 5, 6, 7, 8, 9] fuel
            = some fin ∧
          (run_nins (const_demod ℚ 1500 2) rat_libm (foff_of_arg none) fuel
            (mainInit (const_demod ℚ 1500 2) rat_libm none
              [1, 2, 3, 4, 5, 6, 7, 8, 9])).length = k) ∧
    (∀ fuel, main (const_demod ℚ 1500 0) rat_libm none [1, 2, 3, 4, 5, 6, 7, 8, 9] fuel
      = none) :=
  ⟨(main_terminates (const_demod ℚ 1500 2) rat_libm none [1, 2, 3, 4, 5, 6, 7, 8, 9]).1
      (fun k st h => by
        rcases iter_nin _ _ _ k _ st h with e | ⟨s, e⟩
        · rw [e]
          exact Nat.le_of_ble_eq_true rfl
        · rw [e]
          exact Nat.le_of_ble_eq_true rfl),
    (main_terminates (const_demod ℚ 1500 0) rat_libm none [1, 2, 3, 4, 5, 6, 7, 8, 9]).2.2.2
      (fun _ => rfl)⟩

/-! ## Rotation by real angles -/

theorem comp_ext {R : Type} (a b : COMP R) (h1 : a.real = b.real) (h2 : a.imag = b.imag) :
    a = b := by
  cases a
  cases b
  simp only [COMP.mk.injEq]
  exact ⟨h1, h2⟩

theorem advance_cos_sin (θ φ : ℝ) (n : Nat) :
    advance (⟨Real.cos θ, Real.sin θ⟩ : COMP ℝ) n ⟨Real.cos φ, Real.sin φ⟩
      = ⟨Real.cos (φ + n * θ), Real.sin (φ + n * θ)⟩ := by
  induction n generalizing φ with
  | zero => simp [advance]
  | succ n ih =>
    have h : cmult (⟨Real.cos φ, Real.sin φ⟩ : COMP ℝ) ⟨Real.cos θ, Real.sin θ⟩
        = ⟨Real.cos (φ + θ), Real.sin (φ + θ)⟩ := by
      apply comp_ext
      · simp only [cmult]
        rw [Real.cos_add]
      · simp only [cmult]
        rw [Real.sin_add]
        ring
    rw [advance, h, ih]
    have e : φ + θ + (n : ℝ) * θ = φ + ((n + 1 : Nat) : ℝ) * θ := by
      push_cast
      ring
    rw [e]

theorem advance_from_one (θ : ℝ) (n : Nat) :
    advance (⟨Real.cos θ, Real.sin θ⟩ : COMP ℝ) n ⟨1, 0⟩
      = ⟨Real.cos (n * θ), Real.sin (n * θ)⟩ := by
  have h := advance_cos_sin θ 0 n
  rw [Real.cos_zero, Real.sin_zero, zero_add] at h
  exact h

theorem advance_conj_from_one (θ : ℝ) (n : Nat) :
    advance (cconj (⟨Real.cos θ, Real.sin θ⟩ : COMP ℝ)) n ⟨1, 0⟩
      = ⟨Real.cos (n * θ), -Real.sin (n * θ)⟩ := by
  have h := advance_from_one (-θ) n
  rw [Real.cos_neg, Real.sin_neg, mul_neg, Real.cos_neg, Real.sin_neg] at h
  exact h

theorem sqmag_cos_sin (θ : ℝ) : sqmag (⟨Real.cos θ, Real.sin θ⟩ : COMP ℝ) = 1 := by
  have h := Real.cos_sq_add_sin_sq θ
  simp only [sqmag]
  nlinarith [h]

theorem sqmag_cos_neg_sin (θ : ℝ) : sqmag (⟨Real.cos θ, -Real.sin θ⟩ : COMP ℝ) = 1 := by
  have h := Real.cos_sq_add_sin_sq θ
  simp only [sqmag]
  nlinarith [h]

theorem freq_shift_loop_one {R : Type} [Field R] (xs : List (COMP R)) :
    freq_shift_loop (⟨1, 0⟩ : COMP R) xs ⟨1, 0⟩ = (xs, ⟨1, 0⟩) := by
  induction xs with
  | nil => rfl
  | cons x xs ih =>
    have h1 : cmult (⟨1, 0⟩ : COMP R) ⟨1, 0⟩ = ⟨1, 0⟩ := by
      simp [cmult]
    have h2 : cmult x (⟨1, 0⟩ : COMP R) = x := by
      simp [cmult]
    rw [freq_shift_loop]
    simp only [h1, h2, ih]

theorem advance_one {R : Type} [Field R] (n : Nat) :
    advance (⟨1, 0⟩ : COMP R) n ⟨1, 0⟩ = ⟨1, 0⟩ := by
  induction n with
  | zero => rfl
  | succ n ih =>
    have h1 : cmult (⟨1, 0⟩ : COMP R) ⟨1, 0⟩ = ⟨1, 0⟩ := by
      simp [cmult]
    rw [advance, h1, ih]

theorem freq_shift_frames_total {R : Type} [Field R] (lm : Libm R) (foff Fs : R)
    (frames : List (List (COMP R))) (ph : COMP R) :
    (freq_shift_frames lm foff Fs frames ph).2
      = advance ⟨lm.cos (2 * lm.M_PI * foff / Fs), lm.sin (2 * lm.M_PI * foff / Fs)⟩
          (frames.map List.length).sum ph := by
  induction frames generalizing ph with
  | nil => rfl
  | cons fr frs ih =>
    simp only [freq_shift_frames, List.map_cons, List.sum_cons]
    rw [ih, advance_add]
    simp [fdmdv_freq_shift_coh, freq_shift_loop_snd]

/-! ## The Frequency Shift Operator and the interferer -/

/-- C3: zero-offset identity.  With `foff_hz = 0` and the phasor state at `(1, 0)`, the
Frequency Shift Operator with the real `cos`, `sin` and `π` returns every frame unchanged
and leaves the state at `(1, 0)`: for one call, for every sequence of frames of any
lengths with the state handed from call to call, and in `main`, where `phase_ch` starts at
`(1, 0)` and is `(1, 0)` at every loop head of a run at offset 0. -/
theorem freq_shift_zero_offset (σ : Type) (Fs : ℝ) :
    (∀ xs : List (COMP ℝ),
      fdmdv_freq_shift_coh ⟨Real.cos, Real.sin, Real.logb 10, Real.pi⟩ xs 0 Fs ⟨1, 0⟩
        = (xs, ⟨1, 0⟩)) ∧
    (∀ frames : List (List (COMP ℝ)),
      freq_shift_frames ⟨Real.cos, Real.sin, Real.logb 10, Real.pi⟩ 0 Fs frames ⟨1, 0⟩
        = (frames, ⟨1, 0⟩)) ∧
    (∀ (fv : Freedv σ ℝ) (arg : Option ℝ) (input : List Int),
      (mainInit fv ⟨Real.cos, Real.sin, Real.logb 10, Real.pi⟩ arg input).phase_ch = ⟨1, 0⟩ ∧
      foff_of_arg (none : Option ℝ) = 0 ∧
      ∀ k stk, iter fv ⟨Real.cos, Real.sin, Real.logb 10, Real.pi⟩ 0 k
          (mainInit fv ⟨Real.cos, Real.sin, Real.logb 10, Real.pi⟩ arg input) = some stk →
        stk.phase_ch = ⟨1, 0⟩) := by
  have h1 : ∀ xs : List (COMP ℝ),
      fdmdv_freq_shift_coh ⟨Real.cos, Real.sin, Real.logb 10, Real.pi⟩ xs 0 Fs ⟨1, 0⟩
        = (xs, ⟨1, 0⟩) := by
    intro xs
    simp only [fdmdv_freq_shift_coh, mul_zero, zero_div, Real.cos_zero, Real.sin_zero]
    exact freq_shift_loop_one xs
  refine ⟨h1, ?_, ?_⟩
  · intro frames
    induction frames with
    | nil => rfl
    | cons fr frs ih =>
      simp only [freq_shift_frames, h1, ih]
  · intro fv arg input
    refine ⟨rfl, rfl, ?_⟩
    intro k stk h
    have hp := (iter_phasors fv _ 0 k _ stk h).1
    simp only [mul_zero, zero_div, Real.cos_zero, Real.sin_zero] at hp
    rw [hp]
    exact advance_one _

/-- C4: phase continuity across frame boundaries.  For every offset, sample rate, sample
sequence, starting phasor and split point `N1`, shifting the first `N1` samples and then
the rest with the phasor state returned by the first call gives the same samples and the
same final state as one call on the whole sequence.  In `main` the interferer phasor at a
loop head is the starting phasor advanced once per sample processed so far, and the `i`-th
interferer sample of the run is `1E4` times the phasor advanced `i` times from `(1, 0)`,
whatever the input and the frame lengths. -/
theorem freq_shift_phase_continuity {R σ : Type} [Field R] (lm : Libm R) (foff Fs : R) :
    (∀ (zs : List (COMP R)) (N1 : Nat) (ph : COMP R),
      ((fdmdv_freq_shift_coh lm (zs.take N1) foff Fs ph).1
          ++ (fdmdv_freq_shift_coh lm (zs.drop N1) foff Fs
                (fdmdv_freq_shift_coh lm (zs.take N1) foff Fs ph).2).1,
        (fdmdv_freq_shift_coh lm (zs.drop N1) foff Fs
          (fdmdv_freq_shift_coh lm (zs.take N1) foff Fs ph).2).2)
        = fdmdv_freq_shift_coh lm zs foff Fs ph) ∧
    (∀ (xs ys : List (COMP R)) (ph : COMP R),
      fdmdv_freq_shift_coh lm (xs ++ ys) foff Fs ph
        = ((fdmdv_freq_shift_coh lm xs foff Fs ph).1
            ++ (fdmdv_freq_shift_coh lm ys foff Fs (fdmdv_freq_shift_coh lm xs foff Fs ph).2).1,
          (fdmdv_freq_shift_coh lm ys foff Fs (fdmdv_freq_shift_coh lm xs foff Fs ph).2).2)) ∧
    (∀ (fv : Freedv σ R) (arg : Option R) (input : List Int) (k : Nat),
      (∀ stk, iter fv lm foff k (mainInit fv lm arg input) = some stk →
        stk.interferer_phase = advance (mainInit fv lm arg input).interferer_freq
          (run_samples fv lm foff k (mainInit fv lm arg input)).length ⟨1, 0⟩) ∧
      (∀ (i : Nat) (s : SampleVars R),
        (run_samples fv lm foff k (mainInit fv lm arg input))[i]? = some s →
        s.a = fcmult 10000 (advance
          (cconj ⟨lm.cos (2 * lm.M_PI * fv.tx_centre fv.freedv_open / (FREEDV_FS_8000 : R)),
            lm.sin (2 * lm.M_PI * fv.tx_centre fv.freedv_open / (FREEDV_FS_8000 : R))⟩)
          i ⟨1, 0⟩))) := by
  have happ : ∀ (xs ys : List (COMP R)) (ph : COMP R),
      fdmdv_freq_shift_coh lm (xs ++ ys) foff Fs ph
        = ((fdmdv_freq_shift_coh lm xs foff Fs ph).1
            ++ (fdmdv_freq_shift_coh lm ys foff Fs (fdmdv_freq_shift_coh lm xs foff Fs ph).2).1,
          (fdmdv_freq_shift_coh lm ys foff Fs
            (fdmdv_freq_shift_coh lm xs foff Fs ph).2).2) := by
    intro xs ys ph
    simp only [fdmdv_freq_shift_coh]
    exact freq_shift_loop_append _ xs ys ph
  refine ⟨?_, happ, ?_⟩
  · intro zs N1 ph
    rw [← happ, List.take_append_drop]
  · intro fv arg input k
    constructor
    · intro stk h
      rw [(iter_phasors fv lm foff k _ stk h).2.1, (iter_framing fv lm foff k _ stk h).2.2.2.1]
      rfl
    · intro i s h
      exact (run_samples_get fv lm foff k _ i s h).1

/-- C5: interferer frequency placement.  With `θ = 2π·fc/fs` (`fc` the `tx_centre` of the
opened demodulator, `fs = FREEDV_FS_8000`), `interferer_freq` is the conjugate of the
forward rotation `(cos θ, sin θ)`, that is `(cos θ, −sin θ)`, the rotation by `−θ`; it
keeps that value during the run; the `i`-th interferer sample of the run, counted from 0
across frames, is `1E4·(cos(iθ), −sin(iθ))`, and the first is `(1E4, 0)`. -/
theorem interferer_placement {σ : Type} (fv : Freedv σ ℝ) (arg : Option ℝ)
    (input : List Int) :
    (mainInit fv ⟨Real.cos, Real.sin, Real.logb 10, Real.pi⟩ arg input).interferer_freq
      = cconj ⟨Real.cos (2 * Real.pi * fv.tx_centre fv.freedv_open / (FREEDV_FS_8000 : ℝ)),
          Real.sin (2 * Real.pi * fv.tx_centre fv.freedv_open / (FREEDV_FS_8000 : ℝ))⟩ ∧
    (mainInit fv ⟨Real.cos, Real.sin, Real.logb 10, Real.pi⟩ arg input).interferer_freq
      = ⟨Real.cos (2 * Real.pi * fv.tx_centre fv.freedv_open / (FREEDV_FS_8000 : ℝ)),
          -Real.sin (2 * Real.pi * fv.tx_centre fv.freedv_open / (FREEDV_FS_8000 : ℝ))⟩ ∧
    (mainInit fv ⟨Real.cos, Real.sin, Real.logb 10, Real.pi⟩ arg input).interferer_freq
      = ⟨Real.cos (2 * Real.pi * (-fv.tx_centre fv.freedv_open) / (FREEDV_FS_8000 : ℝ)),
          Real.sin (2 * Real.pi * (-fv.tx_centre fv.freedv_open) / (FREEDV_FS_8000 : ℝ))⟩ ∧
    (∀ k stk, iter fv ⟨Real.cos, Real.sin, Real.logb 10, Real.pi⟩ (foff_of_arg arg) k
        (mainInit fv ⟨Real.cos, Real.sin, Real.logb 10, Real.pi⟩ arg input) = some stk →
      stk.interferer_freq
        = ⟨Real.cos (2 * Real.pi * fv.tx_centre fv.freedv_open / (FREEDV_FS_8000 : ℝ)),
            -Real.sin (2 * Real.pi * fv.tx_centre fv.freedv_open / (FREEDV_FS_8000 : ℝ))⟩) ∧
    (∀ (k i : Nat) (s : SampleVars ℝ), (run_samples fv ⟨Real.cos, Real.sin, Real.logb 10, Real.pi⟩ (foff_of_arg arg) k
        (mainInit fv ⟨Real.cos, Real.sin, Real.logb 10, Real.pi⟩ arg input))[i]? = some s →
      s.a = ⟨10000 * Real.cos
              (i * (2 * Real.pi * fv.tx_centre fv.freedv_open / (FREEDV_FS_8000 : ℝ))),
            10000 * -Real.sin
              (i * (2 * Real.pi * fv.tx_centre fv.freedv_open / (FREEDV_FS_8000 : ℝ)))⟩) ∧
    (∀ (k : Nat) (s : SampleVars ℝ), (run_samples fv ⟨Real.cos, Real.sin, Real.logb 10, Real.pi⟩ (foff_of_arg arg) k
        (mainInit fv ⟨Real.cos, Real.sin, Real.logb 10, Real.pi⟩ arg input))[0]? = some s →
      s.a = ⟨10000, 0⟩) := by
  have hget : ∀ (k i : Nat) (s : SampleVars ℝ),
      (run_samples fv ⟨Real.cos, Real.sin, Real.logb 10, Real.pi⟩ (foff_of_arg arg) k
        (mainInit fv ⟨Real.cos, Real.sin, Real.logb 10, Real.pi⟩ arg input))[i]? = some s →
      s.a = ⟨10000 * Real.cos
              (i * (2 * Real.pi * fv.tx_centre fv.freedv_open / (FREEDV_FS_8000 : ℝ))),
            10000 * -Real.sin
              (i * (2 * Real.pi * fv.tx_centre fv.freedv_open / (FREEDV_FS_8000 : ℝ)))⟩ := by
    intro k i s h
    rw [(run_samples_get fv _ _ k _ i s h).1]
    show fcmult 10000 (advance (cconj _) i ⟨1, 0⟩) = _
    rw [advance_conj_from_one]
    rfl
  refine ⟨rfl, rfl, ?_, ?_, hget, ?_⟩
  · show cconj _ = _
    rw [mul_neg, neg_div, Real.cos_neg, Real.sin_neg]
    rfl
  · intro k stk h
    rw [(iter_framing fv _ _ k _ stk h).2.2.2.2.2]
    rfl
  · intro k s h
    rw [hget k 0 s h]
    simp

/-- C9: rotation correctness.  For every offset `f` and sample rate `fs`, with
`θ = 2π·f/fs`: the increment `(cos θ, sin θ)` has squared magnitude, and magnitude, 1; the
phasor started at `(1, 0)` is `(cos(Kθ), sin(Kθ))`, of squared magnitude 1, after `K`
samples, for one call of the Frequency Shift Operator and for any sequence of frames; and
in `main` (where `fs = FREEDV_FS_8000`) `phase_ch` is `(cos(Nθ), sin(Nθ))` after `N`
processed samples, and `phase_ch`, `interferer_phase` and `interferer_freq` have squared
magnitude 1 at every loop head, as has the interferer phasor at every sample. -/
theorem phasor_rotation (σ : Type) (f fs : ℝ) :
    sqmag (⟨Real.cos (2 * Real.pi * f / fs), Real.sin (2 * Real.pi * f / fs)⟩ : COMP ℝ) = 1 ∧
    Real.sqrt
      (sqmag (⟨Real.cos (2 * Real.pi * f / fs), Real.sin (2 * Real.pi * f / fs)⟩ : COMP ℝ))
      = 1 ∧
    (∀ K : Nat,
      advance (⟨Real.cos (2 * Real.pi * f / fs), Real.sin (2 * Real.pi * f / fs)⟩ : COMP ℝ)
          K ⟨1, 0⟩
        = ⟨Real.cos (K * (2 * Real.pi * f / fs)), Real.sin (K * (2 * Real.pi * f / fs))⟩ ∧
      sqmag (advance
        (⟨Real.cos (2 * Real.pi * f / fs), Real.sin (2 * Real.pi * f / fs)⟩ : COMP ℝ)
          K ⟨1, 0⟩) = 1) ∧
    (∀ xs : List (COMP ℝ),
      (fdmdv_freq_shift_coh ⟨Real.cos, Real.sin, Real.logb 10, Real.pi⟩ xs f fs ⟨1, 0⟩).2
        = ⟨Real.cos (xs.length * (2 * Real.pi * f / fs)),
            Real.sin (xs.length * (2 * Real.pi * f / fs))⟩) ∧
    (∀ frames : List (List (COMP ℝ)),
      (freq_shift_frames ⟨Real.cos, Real.sin, Real.logb 10, Real.pi⟩ f fs frames ⟨1, 0⟩).2
        = ⟨Real.cos ((frames.map List.length).sum * (2 * Real.pi * f / fs)),
            Real.sin ((frames.map List.length).sum * (2 * Real.pi * f / fs))⟩) ∧
    (∀ (fv : Freedv σ ℝ) (arg : Option ℝ) (input : List Int) (k : Nat),
      (∀ stk, iter fv ⟨Real.cos, Real.sin, Real.logb 10, Real.pi⟩ f k
          (mainInit fv ⟨Real.cos, Real.sin, Real.logb 10, Real.pi⟩ arg input) = some stk →
        stk.phase_ch
          = ⟨Real.cos ((run_samples fv ⟨Real.cos, Real.sin, Real.logb 10, Real.pi⟩ f k
                (mainInit fv ⟨Real.cos, Real.sin, Real.logb 10, Real.pi⟩ arg input)).length
                * (2 * Real.pi * f / (FREEDV_FS_8000 : ℝ))),
              Real.sin ((run_samples fv ⟨Real.cos, Real.sin, Real.logb 10, Real.pi⟩ f k
                (mainInit fv ⟨Real.cos, Real.sin, Real.logb 10, Real.pi⟩ arg input)).length
                * (2 * Real.pi * f / (FREEDV_FS_8000 : ℝ)))⟩ ∧
        sqmag stk.phase_ch = 1 ∧ sqmag stk.interferer_phase = 1 ∧
        sqmag stk.interferer_freq = 1) ∧
      (∀ (i : Nat) (s : SampleVars ℝ), (run_samples fv ⟨Real.cos, Real.sin, Real.logb 10, Real.pi⟩ f k
          (mainInit fv ⟨Real.cos, Real.sin, Real.logb 10, Real.pi⟩ arg input))[i]? = some s →
        ∃ ph : COMP ℝ, s.a = fcmult 10000 ph ∧ sqmag ph = 1)) := by
  refine ⟨sqmag_cos_sin _, ?_, ?_, ?_, ?_, ?_⟩
  · rw [sqmag_cos_sin, Real.sqrt_one]
  · intro K
    rw [advance_from_one]
    exact ⟨rfl, sqmag_cos_sin _⟩
  · intro xs
    simp only [fdmdv_freq_shift_coh]
    rw [freq_shift_loop_snd, advance_from_one]
  · intro frames
    rw [freq_shift_frames_total]
    exact advance_from_one _ _
  · intro fv arg input k
    have hfreq : sqmag
        (mainInit fv ⟨Real.cos, Real.sin, Real.logb 10, Real.pi⟩ arg input).interferer_freq
        = 1 := sqmag_cos_neg_sin _
    constructor
    · intro stk h
      obtain ⟨p1, p2, _, _⟩ := iter_phasors fv _ f k _ stk h
      obtain ⟨_, _, _, f4, _, f6⟩ := iter_framing fv _ f k _ stk h
      have hch : stk.phase_ch
          = ⟨Real.cos ((run_samples fv ⟨Real.cos, Real.sin, Real.logb 10, Real.pi⟩ f k
                (mainInit fv ⟨Real.cos, Real.sin, Real.logb 10, Real.pi⟩ arg input)).length
                * (2 * Real.pi * f / (FREEDV_FS_8000 : ℝ))),
              Real.sin ((run_samples fv ⟨Real.cos, Real.sin, Real.logb 10, Real.pi⟩ f k
                (mainInit fv ⟨Real.cos, Real.sin, Real.logb 10, Real.pi⟩ arg input)).length
                * (2 * Real.pi * f / (FREEDV_FS_8000 : ℝ)))⟩ := by
        rw [p1, f4]
        exact advance_from_one _ _
      refine ⟨hch, ?_, ?_, ?_⟩
      · rw [hch]
        exact sqmag_cos_sin _
      · rw [p2, sqmag_advance _ hfreq]
        simp [mainInit, sqmag]
      · rw [f6]
        exact hfreq
    · intro i s h
      refine ⟨_, (run_samples_get fv _ f k _ i s h).1, ?_⟩
      rw [sqmag_advance _ hfreq]
      simp [mainInit, sqmag]

/-! ## Power totals and the composite frame -/

theorem sqmag_nonneg (a : COMP ℝ) : 0 ≤ sqmag a :=
  add_nonneg (mul_self_nonneg _) (mul_self_nonneg _)

theorem sum_map_sqmag_nonneg {α : Type} (l : List α) (g : α → COMP ℝ) :
    0 ≤ (l.map (fun s => sqmag (g s))).sum := by
  induction l with
  | nil => simp
  | cons x xs ih =>
    simp only [List.map_cons, List.sum_cons]
    exact add_nonneg (sqmag_nonneg _) ih

/-- C2: power accounting.  Over the reals: one pass of the interferer loop adds
`re*re + im*im` of the local `d` to `power_d` and of the local `a` to `power_interferer`,
and neither total decreases; neither decreases over an iteration of the main loop; at
every loop head, and in the state `main` returns, `power_d` is the sum of `re*re + im*im`
over the `d` of all processed samples and `power_interferer` the sum over the `a` of all
processed samples. -/
theorem power_accounting {σ : Type} (fv : Freedv σ ℝ) (lm : Libm ℝ) (arg : Option ℝ)
    (input : List Int) :
    (∀ (freq : COMP ℝ) (v : InterfererVars ℝ) (x : COMP ℝ),
      (interferer_sample freq v x).1.d = x ∧
      (interferer_sample freq v x).1.a = fcmult 10000 v.interferer_phase ∧
      (interferer_sample freq v x).2.power_d
        = v.power_d + sqmag (interferer_sample freq v x).1.d ∧
      (interferer_sample freq v x).2.power_interferer
        = v.power_interferer + sqmag (interferer_sample freq v x).1.a ∧
      v.power_d ≤ (interferer_sample freq v x).2.power_d ∧
      v.power_interferer ≤ (interferer_sample freq v x).2.power_interferer) ∧
    (∀ st st', loopBody fv lm (foff_of_arg arg) st = some st' →
      st.power_d ≤ st'.power_d ∧ st.power_interferer ≤ st'.power_interferer) ∧
    (∀ k stk, iter fv lm (foff_of_arg arg) k (mainInit fv lm arg input) = some stk →
      stk.power_d = ((run_samples fv lm (foff_of_arg arg) k
        (mainInit fv lm arg input)).map (fun s => sqmag s.d)).sum ∧
      stk.power_interferer = ((run_samples fv lm (foff_of_arg arg) k
        (mainInit fv lm arg input)).map (fun s => sqmag s.a)).sum) ∧
    (∀ fuel fin, main fv lm arg input fuel = some fin →
      fin.power_d = ((run_samples fv lm (foff_of_arg arg) fuel
        (mainInit fv lm arg input)).map (fun s => sqmag s.d)).sum ∧
      fin.power_interferer = ((run_samples fv lm (foff_of_arg arg) fuel
        (mainInit fv lm arg input)).map (fun s => sqmag s.a)).sum) := by
  have hrun : ∀ k stk,
      iter fv lm (foff_of_arg arg) k (mainInit fv lm arg input) = some stk →
      stk.power_d = ((run_samples fv lm (foff_of_arg arg) k
        (mainInit fv lm arg input)).map (fun s => sqmag s.d)).sum ∧
      stk.power_interferer = ((run_samples fv lm (foff_of_arg arg) k
        (mainInit fv lm arg input)).map (fun s => sqmag s.a)).sum := by
    intro k stk h
    obtain ⟨_, _, p3, p4⟩ := iter_phasors fv lm _ k _ stk h
    rw [p3, p4]
    simp [mainInit]
  refine ⟨?_, ?_, hrun, ?_⟩
  · intro freq v x
    refine ⟨rfl, rfl, rfl, rfl, ?_, ?_⟩
    · show v.power_d ≤ v.power_d + sqmag x
      linarith [sqmag_nonneg x]
    · show v.power_interferer ≤ v.power_interferer + sqmag (fcmult 10000 v.interferer_phase)
      linarith [sqmag_nonneg (fcmult 10000 v.interferer_phase)]
  · intro st st' h
    have h1 : iter fv lm (foff_of_arg arg) 1 st = some st' := by
      rw [iter_of_loopBody fv lm _ 0 st st' h]
      rfl
    obtain ⟨_, _, p3, p4⟩ := iter_phasors fv lm _ 1 st st' h1
    rw [p3, p4]
    constructor
    · linarith [sum_map_sqmag_nonneg (run_samples fv lm (foff_of_arg arg) 1 st)
        (fun s => s.d)]
    · linarith [sum_map_sqmag_nonneg (run_samples fv lm (foff_of_arg arg) 1 st)
        (fun s => s.a)]
  · intro fuel fin hfin
    obtain ⟨st, hst, e⟩ := (main_eq_some_iff fv lm arg input fuel fin).1 hfin
    obtain ⟨k, stk, hk, hit, hlt, e'⟩ := (mainLoop_eq_some_iff fv lm _ fuel _ st).1 hst
    rw [(run_stops fv lm _ k _ stk hit hlt fuel (Nat.le_of_lt hk)).2]
    subst e
    subst e'
    exact hrun k stk hit

/-- C6: the composite frame.  In an executed iteration the frame appended to the
diagnostic sink is the frame passed to `freedv_comprx`, it has `nin` entries, and its
`i`-th entry has imaginary part 0 and real part the real part of the `i`-th
frequency-shifted input sample plus the real part of the interferer sample, which is `1E4`
times the real part of the interferer phasor at that sample; the local `d` is the shifted
sample with its imaginary part zeroed. -/
theorem composite_frame {R σ : Type} [Field R] (fv : Freedv σ R) (lm : Libm R) (foff : R)
    (st st' : MainState σ R) (h : loopBody fv lm foff st = some st') :
    st'.fdemod = st.fdemod ++ (frame_samples lm foff st).map (fun s => s.demod_in_comp) ∧
    st'.freedv = (fv.freedv_comprx st.freedv
      ((frame_samples lm foff st).map (fun s => s.demod_in_comp))).1 ∧
    ((frame_samples lm foff st).map (fun s => s.demod_in_comp)).length = st.nin ∧
    ∀ i, i < st.nin → ∃ (y : COMP R) (s : SampleVars R),
      (fdmdv_freq_shift_coh lm (deinterleave st.nin (st.stdin.take (2 * st.nin))) foff
        (FREEDV_FS_8000 : R) st.phase_ch).1[i]? = some y ∧
      (frame_samples lm foff st)[i]? = some s ∧
      ((frame_samples lm foff st).map (fun s => s.demod_in_comp))[i]?
        = some s.demod_in_comp ∧
      s.a = fcmult 10000 (advance st.interferer_freq i st.interferer_phase) ∧
      s.d = zero_imag y ∧
      s.demod_in_comp.imag = 0 ∧
      s.demod_in_comp.real
        = y.real + 10000 * (advance st.interferer_freq i st.interferer_phase).real ∧
      s.demod_in_comp = ⟨y.real + s.a.real, 0⟩ := by
  obtain ⟨_, _, b3, b4, _⟩ := loopBody_some fv lm foff st st' h
  refine ⟨b3, b4, by simp [frame_samples_length], ?_⟩
  intro i hi
  have hlen : (fdmdv_freq_shift_coh lm (deinterleave st.nin (st.stdin.take (2 * st.nin))) foff
      (FREEDV_FS_8000 : R) st.phase_ch).1.length = st.nin := by
    simp [fdmdv_freq_shift_coh, freq_shift_loop_length, deinterleave_length]
  have hy := List.getElem?_eq_getElem (l := (fdmdv_freq_shift_coh lm
    (deinterleave st.nin (st.stdin.take (2 * st.nin))) foff
      (FREEDV_FS_8000 : R) st.phase_ch).1) (n := i) (by rw [hlen]; exact hi)
  have hs : (frame_samples lm foff st)[i]? = some
      ⟨fcmult 10000 (advance st.interferer_freq i st.interferer_phase),
        zero_imag ((fdmdv_freq_shift_coh lm
          (deinterleave st.nin (st.stdin.take (2 * st.nin))) foff
            (FREEDV_FS_8000 : R) st.phase_ch).1.get ⟨i, by rw [hlen]; exact hi⟩),
        zero_imag (cadd (zero_imag ((fdmdv_freq_shift_coh lm
          (deinterleave st.nin (st.stdin.take (2 * st.nin))) foff
            (FREEDV_FS_8000 : R) st.phase_ch).1.get ⟨i, by rw [hlen]; exact hi⟩))
          (fcmult 10000 (advance st.interferer_freq i st.interferer_phase)))⟩ := by
    unfold frame_samples
    rw [interferer_loop_get]
    simp only [signal_path, fread, List.getElem?_map, hy, Option.map_some', List.get_eq_getElem]
  refine ⟨_, _, hy, hs, ?_, rfl, rfl, rfl, ?_, ?_⟩
  · rw [List.getElem?_map, hs]
    rfl
  · simp [zero_imag, cadd, fcmult]
  · simp [zero_imag, cadd, fcmult]

/-! ## All-zero input -/

/-- C6 at a concrete iteration: two samples from the raw values 1, 2, 3, 4. -/
theorem composite_frame_witness :
    (loopBody (const_demod ℚ 1500 2) rat_libm 0
        (mainInit (const_demod ℚ 1500 2) rat_libm none [1, 2, 3, 4, 5])).map
      (fun s => s.fdemod) = some [⟨10001, 0⟩, ⟨10003, 0⟩] ∧
    ∃ st', loopBody (const_demod ℚ 1500 2) rat_libm 0
        (mainInit (const_demod ℚ 1500 2) rat_libm none [1, 2, 3, 4, 5]) = some st' ∧
      st'.fdemod = (mainInit (const_demod ℚ 1500 2) rat_libm none [1, 2, 3, 4, 5]).fdemod
        ++ (frame_samples rat_libm 0
          (mainInit (const_demod ℚ 1500 2) rat_libm none [1, 2, 3, 4, 5])).map
            (fun s => s.demod_in_comp) :=
  have h : (loopBody (const_demod ℚ 1500 2) rat_libm 0
      (mainInit (const_demod ℚ 1500 2) rat_libm none [1, 2, 3, 4, 5])).isSome = true := by
    decide
  ⟨by
      norm_num [loopBody, mainInit, const_demod, rat_libm, fread, signal_path,
        fdmdv_freq_shift_coh, freq_shift_loop, deinterleave, interferer_loop,
        interferer_sample, zero_imag, cadd, cmult, fcmult, cconj, List.range_succ],
    _, (Option.some_get h).symm,
    (composite_frame (const_demod ℚ 1500 2) rat_libm 0 _ _ (Option.some_get h).symm).1⟩

end Codec2
